import Mathlib

set_option maxRecDepth 40000

/-!
Verification of the k-bucket routing table and protocol engine of the `dht`
repository (`src/kad/kbucket.rs`, `src/kad/mod.rs`, `src/lib.rs`).

The Rust code is embedded shallowly:
* machine bytes (`u8`) become `Nat` together with a well-formedness
  predicate (`< 256`);
* `NodeID` becomes a list of byte values (the source's `[u8; 32]`);
* `SocketAddr` is opaque in the source (only equality and copying are used),
  so it is modelled by `Nat`;
* panicking operations (`assert!`, index out of bounds, `unwrap`) become
  `Option`, with `none` for a panic;
* the recursive retry in `KBuckets::insert` (bounded by 253 in the source's
  own comment) is given an explicit fuel of 257, which is proved sufficient
  on reachable states;
* the crossbeam channel `Sender` is modelled by an accumulating list of sent
  messages together with a `connected` flag (`send` returns an error, and
  `unwrap` hence panics, exactly when the receiving side is gone).
-/

namespace Dht

/-- `K = 20`, the bucket capacity from `kbucket.rs`. -/
def K : Nat := 20

/-- `KEY_BITS = 256` from `kbucket.rs`. -/
def KEY_BITS : Nat := 256

/-- `KEY_BYTES = KEY_BITS / 8 = 32` from `kbucket.rs`. -/
def KEY_BYTES : Nat := 32

/-- Transport endpoint. `SocketAddr` is opaque to the verified core: only
equality and copying are used, so any infinite type with decidable equality
models it. -/
abbrev Addr := Nat

/-- `u8::leading_zeros` for a byte value. -/
def byteClz (b : Nat) : Nat :=
  if 128 ≤ b then 0
  else if 64 ≤ b then 1
  else if 32 ≤ b then 2
  else if 16 ≤ b then 3
  else if 8 ≤ b then 4
  else if 4 ≤ b then 5
  else if 2 ≤ b then 6
  else if 1 ≤ b then 7
  else 8

/-- The loop body of `NodeID::leading_zeros`: accumulate 8 per leading zero
byte and stop at the first byte that is not all zeros. -/
def lzBytes : List Nat → Nat
  | [] => 0
  | b :: l => if byteClz b = 8 then 8 + lzBytes l else byteClz b

/-- `NodeID`: a 256-bit key stored as 32 bytes (`bytes: [u8; KEY_BYTES]`). -/
structure NodeID where
  bytes : List Nat
deriving DecidableEq, Repr

/-- Well-formedness of the embedding: exactly `KEY_BYTES` entries, each a
byte value. (In Rust this is enforced by the type `[u8; 32]`.) -/
def NodeID.WF (n : NodeID) : Prop :=
  n.bytes.length = KEY_BYTES ∧ ∀ b ∈ n.bytes, b < 256

instance (n : NodeID) : Decidable n.WF := by
  unfold NodeID.WF; infer_instance

/-- `impl BitXor for NodeID`: bytewise xor. -/
def NodeID.bitxor (a b : NodeID) : NodeID :=
  ⟨List.zipWith (fun x y => x ^^^ y) a.bytes b.bytes⟩

/-- `NodeID::leading_zeros`. -/
def NodeID.leading_zeros (n : NodeID) : Nat := lzBytes n.bytes

/-- `(me ^ contact.id).leading_zeros()`: the distance class used for bucket
routing. -/
def distanceClass (me other : NodeID) : Nat :=
  (NodeID.bitxor me other).leading_zeros

/-- `Contact { id, addr }`. Source equality compares only `id`. -/
structure Contact where
  id : NodeID
  addr : Addr
deriving DecidableEq, Repr

/-- `KBucket { can_split, contacts }`; the deque front (least recently seen)
is the head of the list, `push_back` appends. -/
structure KBucket where
  can_split : Bool
  contacts : List Contact
deriving DecidableEq, Repr

/-- `KBuckets { indices, next_to_split, k_buckets }`. `indices` is the
source's `[u8; KEY_BITS]` array (values written modulo 256 to model the
`as u8` cast). -/
structure KBuckets where
  indices : List Nat
  next_to_split : Nat
  k_buckets : List KBucket
deriving DecidableEq, Repr

/-- `KBuckets::new`. -/
def KBuckets.new : KBuckets :=
  { indices := List.replicate KEY_BITS 0
    next_to_split := 0
    k_buckets := [{ can_split := true, contacts := [] }] }

/-- `KBuckets::insert_unchecked`. `none` models the panics of the two
unchecked index expressions. -/
def KBuckets.insert_unchecked (s : KBuckets) (me : NodeID) (contact : Contact) :
    Option KBuckets :=
  match s.indices[distanceClass me contact.id]? with
  | none => none
  | some bi =>
    match s.k_buckets[bi]? with
    | none => none
    | some kb =>
      some { s with k_buckets :=
        s.k_buckets.set bi ({ kb with contacts := kb.contacts ++ [contact] }) }

/-- The redistribution loop
`for contact in old_bucket.contacts.drain(..) { self.insert_unchecked(me, contact) }`. -/
def redistribute (me : NodeID) : List Contact → KBuckets → Option KBuckets
  | [], s => some s
  | c :: cs, s =>
    match s.insert_unchecked me c with
    | none => none
    | some s1 => redistribute me cs s1

/-- `Vec::swap_remove(0)`: remove index 0, moving the last element into its
place. `none` models the panic on an empty vector. -/
def swapRemoveZero (l : List KBucket) : Option (KBucket × List KBucket) :=
  match l with
  | [] => none
  | x :: rest =>
    match rest.getLast? with
    | none => some (x, [])
    | some last => some (x, last :: rest.dropLast)

/-- `KBuckets::insert`, with explicit fuel for the recursive retry after a
split (the source bounds the depth by 253). `none` models a panic:
the `assert!(bucket < 256)`, an out-of-range index, or fuel exhaustion
(which is proved unreachable on reachable states). -/
def insertA (me : NodeID) : Nat → Contact → KBuckets →
    Option (KBuckets × Except Contact Unit)
  | 0, _, _ => none
  | fuel + 1, contact, s =>
    let cls := distanceClass me contact.id
    if cls < 256 then
      match s.indices[cls]? with
      | none => none
      | some bi =>
        match s.k_buckets[bi]? with
        | none => none
        | some kb =>
          -- Handle the case where contact is already in its bucket:
          -- remove the stored entry and push it (the stored entry, with its
          -- stored address) to the back.
          match kb.contacts.find? (fun c => contact.id == c.id) with
          | some old =>
            let moved := (kb.contacts.eraseP (fun c => contact.id == c.id)) ++ [old]
            some ({ s with k_buckets := s.k_buckets.set bi ({ kb with contacts := moved }) },
              Except.ok ())
          | none =>
            if kb.contacts.length = K then
              if kb.can_split then
                match swapRemoveZero
                    (s.k_buckets ++
                      [⟨false, []⟩, ⟨true, []⟩]) with
                | none => none
                | some (old_bucket, ks2) =>
                  if s.next_to_split < s.indices.length then
                    let s1 : KBuckets :=
                      { indices := s.indices.set s.next_to_split ((ks2.length - 1) % 256)
                        next_to_split := s.next_to_split + 1
                        k_buckets := ks2 }
                    match redistribute me old_bucket.contacts s1 with
                    | none => none
                    | some s2 => insertA me fuel contact s2
                  else none
              else
                match kb.contacts.head? with
                | none => none
                | some front => some (s, Except.error front)
            else
              let appended := kb.contacts ++ [contact]
              some ({ s with k_buckets := s.k_buckets.set bi ({ kb with contacts := appended }) },
                Except.ok ())
    else none

/-- `KBuckets::insert` at the fuel bound 257 (strictly above the source's
own depth bound of 253). -/
def KBuckets.insert (s : KBuckets) (me : NodeID) (contact : Contact) :
    Option (KBuckets × Except Contact Unit) :=
  insertA me 257 contact s

/-- The bucket index the `indices` array designates for a distance class on
well-formed tables: dedicated buckets for classes below `next_to_split`,
the splittable bucket (index 0) for the unsplit tail. -/
def targetBucket (s : KBuckets) (cls : Nat) : Nat :=
  if cls < s.next_to_split then cls + 1 else 0

/-- A contact with this id is stored somewhere in the table. -/
def idMem (s : KBuckets) (x : NodeID) : Prop :=
  ∃ (j : Nat) (b : KBucket), s.k_buckets[j]? = some b ∧ ∃ c ∈ b.contacts, c.id = x

/-- Lookup by id through the `indices` array, the way the table itself
resolves a contact's bucket (the spec's "lookup by id"). -/
def findById (me : NodeID) (s : KBuckets) (x : NodeID) : Option Contact :=
  match s.indices[distanceClass me x]? with
  | none => none
  | some bi =>
    match s.k_buckets[bi]? with
    | none => none
    | some kb => kb.contacts.find? (fun c => c.id == x)

/-- States reachable from `KBuckets::new` by (non-panicking) `insert` calls
with well-formed contact ids. -/
inductive Reachable (me : NodeID) : KBuckets → Prop
  | new : Reachable me KBuckets.new
  | step {s s' : KBuckets} {c : Contact} {r : Except Contact Unit} :
      Reachable me s → c.id.WF → s.insert me c = some (s', r) → Reachable me s'

/-- `Payload`. -/
inductive Payload
  | Ping
  | Pong
deriving DecidableEq, Repr

/-- `Packet { id, seq_num, payload }`. -/
structure Packet where
  id : NodeID
  seq_num : Nat
  payload : Payload
deriving DecidableEq, Repr

/-- `Command`. -/
inductive Command
  | Shutdown
  | Ping (peer : Addr)
deriving DecidableEq, Repr

/-- The protocol-engine state `Kad { send, id, known_peers }`. The channel
`send` is modelled by the list of messages pushed so far plus a flag saying
whether the receiving end is still connected (crossbeam `send` fails exactly
when every receiver has been dropped). -/
structure Kad where
  id : NodeID
  known_peers : KBuckets
  connected : Bool
  sent : List (Packet × Addr)
deriving DecidableEq, Repr

/-- `self.send.send(msg)`: enqueue if the channel is connected, fail
otherwise (`none` here models the `Err` before the caller's `unwrap`). -/
def Kad.trySend (k : Kad) (p : Packet) (a : Addr) : Option Kad :=
  if k.connected then some { k with sent := k.sent ++ [(p, a)] } else none

/-- `Kad::handle_packet`; `none` models a panic (the table's assertion or
the `unwrap` on the channel send). -/
def Kad.handle_packet (k : Kad) (pack : Packet) (peer : Addr) : Option Kad :=
  match k.known_peers.insert k.id { id := pack.id, addr := peer } with
  | none => none
  | some (kp, _) =>
    -- `.ok()` discards the insertion result.
    let k1 := { k with known_peers := kp }
    match pack.payload with
    | Payload.Ping =>
      match k1.trySend { id := k.id, seq_num := pack.seq_num, payload := Payload.Pong } peer with
      | none => none
      | some k2 => some k2
    | Payload.Pong => some k1

/-- `Kad::handle_command`; the `Bool` is the source's return value, `none`
models the `unwrap` panic on a failed channel send. -/
def Kad.handle_command (k : Kad) (command : Command) : Option (Kad × Bool) :=
  match command with
  | Command.Shutdown => some (k, false)
  | Command.Ping peer =>
    match k.trySend { id := k.id, seq_num := 0, payload := Payload.Ping } peer with
    | none => none
    | some k1 => some (k1, true)

/-- The command path of the worker loop in `Dht::start`:
`if kad.handle_command(cmd) { break }`. The returned flag is `true` exactly
when the loop broke out; with an exhausted command list the loop is still
waiting. `none` models a panic inside the handler. -/
def driverRun (k : Kad) : List Command → Option (Kad × Bool)
  | [] => some (k, false)
  | c :: cs =>
    match k.handle_command c with
    | none => none
    | some (k1, true) => some (k1, true)
    | some (k1, false) => driverRun k1 cs


/-- Decidable equality for insertion results (`Result<(), Contact>`). -/
instance : DecidableEq (Except Contact Unit) := fun a b =>
  match a, b with
  | Except.ok x, Except.ok y =>
    if h : x = y then isTrue (by rw [h]) else isFalse (fun hh => h (by injection hh))
  | Except.error x, Except.error y =>
    if h : x = y then isTrue (by rw [h]) else isFalse (fun hh => h (by injection hh))
  | Except.ok _, Except.error _ => isFalse (fun hh => Except.noConfusion hh)
  | Except.error _, Except.ok _ => isFalse (fun hh => Except.noConfusion hh)

/-! Concrete fixtures used to exercise the definitions on closed inputs. -/

/-- The all-zero node id. -/
def zeroId : NodeID := ⟨List.replicate 32 0⟩

/-- A well-formed id that is zero except in the last byte (close to `zeroId`). -/
def nearId (b : Nat) : NodeID := ⟨List.replicate 31 0 ++ [b]⟩

/-- A well-formed id that is `0xFF` everywhere but the last byte (maximally
far from `zeroId`, distance class 0). -/
def farId (b : Nat) : NodeID := ⟨List.replicate 31 255 ++ [b]⟩

/-- Twenty distinct distant contacts (the fixture of the source's
`full_distant_bucket` test). -/
def farContacts : List Contact := (List.range 20).map (fun i => ⟨farId (255 - i), 6060⟩)

/-- A full bucket that is not allowed to split. -/
def fullBucket : KBucket := ⟨false, farContacts⟩

/-- A table whose every distance class routes to a full, non-splittable
bucket at position 1. -/
def fullState : KBuckets := ⟨List.replicate 256 1, 1, [⟨true, []⟩, fullBucket]⟩

/-- A one-contact table: the state reached from `KBuckets.new` by inserting
`⟨nearId 1, 1⟩` under identity `zeroId`. -/
def oneState : KBuckets := ⟨List.replicate 256 0, 0, [⟨true, [⟨nearId 1, 1⟩]⟩]⟩

/-- Protocol-engine fixture: identity `zeroId`, fresh table, connected sink. -/
def kad0 : Kad := ⟨zeroId, KBuckets.new, true, []⟩

/-- Protocol-engine fixture whose outbound channel receiver has been dropped. -/
def kadDisc : Kad := ⟨zeroId, KBuckets.new, false, []⟩


end Dht

namespace Dht

/-! ### Byte-level lemmas -/

theorem byteClz_le (b : Nat) : byteClz b ≤ 8 := by
  unfold byteClz; split_ifs <;> omega

theorem byteClz_eq_eight_iff (b : Nat) : byteClz b = 8 ↔ b = 0 := by
  unfold byteClz; split_ifs <;> simp <;> omega

theorem byteClz_ge_four_iff (b : Nat) : 4 ≤ byteClz b ↔ b < 16 := by
  unfold byteClz; split_ifs <;> simp <;> omega

theorem lzBytes_le (l : List Nat) : lzBytes l ≤ 8 * l.length := by
  induction l with
  | nil => simp [lzBytes]
  | cons b l ih =>
    simp only [lzBytes, List.length_cons]
    split_ifs with h
    · omega
    · have := byteClz_le b; omega

theorem lzBytes_replicate_zero (k : Nat) : lzBytes (List.replicate k 0) = 8 * k := by
  induction k with
  | zero => simp [lzBytes]
  | succ k ih =>
    rw [List.replicate_succ]
    simp only [lzBytes]
    rw [if_pos (by norm_num [byteClz]), ih]
    omega

theorem lzBytes_replicate_append (k b : Nat) :
    lzBytes (List.replicate k 0 ++ [b]) = 8 * k + byteClz b := by
  induction k with
  | zero =>
    simp only [List.replicate_zero, List.nil_append, lzBytes]
    split_ifs with h <;> omega
  | succ k ih =>
    rw [List.replicate_succ, List.cons_append]
    simp only [lzBytes]
    rw [if_pos (by norm_num [byteClz]), ih]
    omega

theorem lzBytes_lt_of_exists_ne (l : List Nat) (h : ∃ b ∈ l, b ≠ 0) :
    lzBytes l < 8 * l.length := by
  induction l with
  | nil => simp at h
  | cons b l ih =>
    simp only [lzBytes, List.length_cons]
    rcases h with ⟨x, hx, hxne⟩
    rcases List.mem_cons.mp hx with rfl | hxl
    · have hne8 : byteClz x ≠ 8 := fun h => hxne ((byteClz_eq_eight_iff x).mp h)
      rw [if_neg hne8]
      have := byteClz_le x
      omega
    · split_ifs with hb
      · have := ih ⟨x, hxl, hxne⟩; omega
      · have := byteClz_le b; omega

theorem lzBytes_take_replicate (k : Nat) :
    ∀ l : List Nat, 8 * k + 4 ≤ lzBytes l → l.take k = List.replicate k 0 := by
  induction k with
  | zero => intro l _; simp
  | succ k ih =>
    intro l hl
    cases l with
    | nil => simp [lzBytes] at hl
    | cons b l =>
      simp only [lzBytes] at hl
      split_ifs at hl with hb
      · have hb0 : b = 0 := (byteClz_eq_eight_iff b).mp hb
        rw [List.take_succ_cons, List.replicate_succ, hb0, ih l (by omega)]
      · have := byteClz_le b; omega

/-! ### Xor lemmas -/

theorem zipWith_xor_self (l : List Nat) :
    List.zipWith (fun x y => x ^^^ y) l l = List.replicate l.length 0 := by
  induction l with
  | nil => simp
  | cons b l ih => simp [ih, List.replicate_succ]

theorem zipWith_xor_exists_ne (x y : List Nat) (hlen : x.length = y.length) (hne : x ≠ y) :
    ∃ b ∈ List.zipWith (fun u v => u ^^^ v) x y, b ≠ 0 := by
  induction x generalizing y with
  | nil => cases y with
    | nil => exact absurd rfl hne
    | cons c ys => simp at hlen
  | cons a xs ih =>
    cases y with
    | nil => simp at hlen
    | cons c ys =>
      by_cases hac : a = c
      · subst hac
        have hxy : xs ≠ ys := by intro h; exact hne (by rw [h])
        obtain ⟨b, hb, hbne⟩ := ih ys (by simpa using hlen) hxy
        exact ⟨b, by simp [hb], hbne⟩
      · refine ⟨a ^^^ c, by simp, ?_⟩
        intro h
        exact hac (Nat.xor_eq_zero.mp h)

theorem zipWith_xor_cancel (m : List Nat) :
    ∀ x y : List Nat, m.length = x.length → m.length = y.length →
      List.zipWith (fun u v => u ^^^ v) m x = List.zipWith (fun u v => u ^^^ v) m y →
      x = y := by
  induction m with
  | nil =>
    intro x y hx hy _
    cases x <;> cases y <;> simp_all
  | cons a ms ih =>
    intro x y hx hy h
    cases x with
    | nil => simp at hx
    | cons b xs =>
      cases y with
      | nil => simp at hy
      | cons c ys =>
        simp only [List.zipWith_cons_cons, List.cons.injEq] at h
        obtain ⟨h1, h2⟩ := h
        have hbc : b = c := by
          have := congrArg (fun z => a ^^^ z) h1
          simpa [← Nat.xor_assoc, Nat.xor_self] using this
        rw [hbc, ih xs ys (by simpa using hx) (by simpa using hy) h2]

/-! ### Distance-class lemmas -/

theorem bitxor_length (a b : NodeID) :
    (NodeID.bitxor a b).bytes.length = min a.bytes.length b.bytes.length := by
  simp [NodeID.bitxor]

theorem distanceClass_self (a : NodeID) (ha : a.WF) : distanceClass a a = 256 := by
  unfold distanceClass NodeID.leading_zeros NodeID.bitxor
  rw [zipWith_xor_self, lzBytes_replicate_zero, ha.1]
  decide

theorem distanceClass_lt (me c : NodeID) (hme : me.WF) (hc : c.WF) (hne : c ≠ me) :
    distanceClass me c < 256 := by
  unfold distanceClass NodeID.leading_zeros NodeID.bitxor
  show lzBytes (List.zipWith (fun u v => u ^^^ v) me.bytes c.bytes) < 256
  have hlen : me.bytes.length = c.bytes.length := by rw [hme.1, hc.1]
  have hbne : me.bytes ≠ c.bytes := by
    intro h; exact hne (by cases me; cases c; simp_all)
  have := lzBytes_lt_of_exists_ne _ (zipWith_xor_exists_ne me.bytes c.bytes hlen hbne)
  have hzlen : (List.zipWith (fun u v => u ^^^ v) me.bytes c.bytes).length = 32 := by
    simp [hme.1, hc.1, KEY_BYTES]
  omega

theorem distanceClass_spine (me c : NodeID) (hme : me.WF) (hc : c.WF)
    (hge : 252 ≤ distanceClass me c) (hlt : distanceClass me c < 256) :
    ∃ b, 1 ≤ b ∧ b < 16 ∧
      (NodeID.bitxor me c).bytes = List.replicate 31 0 ++ [b] := by
  set v := (NodeID.bitxor me c).bytes with hv
  have hvlen : v.length = 32 := by
    rw [hv, bitxor_length, hme.1, hc.1]; rfl
  have hlz : lzBytes v = distanceClass me c := rfl
  have htake : v.take 31 = List.replicate 31 0 := by
    apply lzBytes_take_replicate
    rw [hlz]; omega
  obtain ⟨b, hvb⟩ : ∃ b, v = List.replicate 31 0 ++ [b] := by
    have hsplit : v = v.take 31 ++ v.drop 31 := (List.take_append_drop 31 v).symm
    have hdlen : (v.drop 31).length = 1 := by rw [List.length_drop, hvlen]
    obtain ⟨b, hb⟩ := List.length_eq_one.mp hdlen
    exact ⟨b, by rw [hsplit, htake, hb]⟩
  have hlzv : lzBytes v = 8 * 31 + byteClz b := by rw [hvb, lzBytes_replicate_append]
  refine ⟨b, ?_, ?_, hvb⟩
  · have : byteClz b ≠ 8 := by rw [hlz] at hlzv; omega
    have := (byteClz_eq_eight_iff b).not.mp this
    omega
  · rw [← byteClz_ge_four_iff]
    rw [hlz] at hlzv; omega

theorem bitxor_inj (me x y : NodeID) (hme : me.WF) (hx : x.WF) (hy : y.WF)
    (h : (NodeID.bitxor me x).bytes = (NodeID.bitxor me y).bytes) : x = y := by
  have := zipWith_xor_cancel me.bytes x.bytes y.bytes
    (by rw [hme.1, hx.1]) (by rw [hme.1, hy.1]) h
  cases x; cases y; simp_all

/-- Pigeonhole for the split bound: with all distance classes in `252..255`
there are at most 15 distinct well-formed ids. -/
theorem length_le_of_class_ge_252 (me : NodeID) (hme : me.WF) (l : List Contact)
    (hwf : ∀ c ∈ l, c.id.WF)
    (hge : ∀ c ∈ l, 252 ≤ distanceClass me c.id)
    (hlt : ∀ c ∈ l, distanceClass me c.id < 256)
    (hnd : (l.map Contact.id).Nodup) : l.length ≤ 15 := by
  classical
  set g : NodeID → Nat := fun x => ((NodeID.bitxor me x).bytes.getLast?).getD 0 with hg
  set ids := l.map Contact.id with hids
  have hmem : ∀ x ∈ ids, x.WF ∧ 252 ≤ distanceClass me x ∧ distanceClass me x < 256 := by
    intro x hx
    rw [hids, List.mem_map] at hx
    obtain ⟨c, hc, rfl⟩ := hx
    exact ⟨hwf c hc, hge c hc, hlt c hc⟩
  have hspine : ∀ x ∈ ids, ∃ b, 1 ≤ b ∧ b < 16 ∧
      (NodeID.bitxor me x).bytes = List.replicate 31 0 ++ [b] ∧ g x = b := by
    intro x hx
    obtain ⟨hxwf, hxge, hxlt⟩ := hmem x hx
    obtain ⟨b, hb1, hb2, hb3⟩ := distanceClass_spine me x hme hxwf hxge hxlt
    exact ⟨b, hb1, hb2, hb3, by rw [hg]; simp [hb3]⟩
  have hval : ∀ x ∈ ids, g x ∈ Finset.Ico 1 16 := by
    intro x hx
    obtain ⟨b, hb1, hb2, _, hgb⟩ := hspine x hx
    rw [hgb]; simp [Finset.mem_Ico]; omega
  have hinj : ∀ x ∈ ids, ∀ y ∈ ids, g x = g y → x = y := by
    intro x hx y hy hxy
    obtain ⟨bx, _, _, hbx3, hbxg⟩ := hspine x hx
    obtain ⟨by', _, _, hby3, hbyg⟩ := hspine y hy
    have hbb : bx = by' := by rw [← hbxg, ← hbyg, hxy]
    exact bitxor_inj me x y hme (hmem x hx).1 (hmem y hy).1 (by rw [hbx3, hby3, hbb])
  have hvnd : (ids.map g).Nodup := hnd.map_on hinj
  have hvsub : (ids.map g).toFinset ⊆ Finset.Ico 1 16 := by
    intro v hv
    rw [List.mem_toFinset, List.mem_map] at hv
    obtain ⟨x, hx, rfl⟩ := hv
    exact hval x hx
  have hcard := Finset.card_le_card hvsub
  rw [List.toFinset_card_of_nodup hvnd, Nat.card_Ico] at hcard
  have : ids.length = l.length := by rw [hids, List.length_map]
  simp only [List.length_map] at hcard
  omega

end Dht

namespace Dht

/-! ### The routing-table invariant -/

/-- The reachable-state invariant of `KBuckets` implied by the source's own
comments: dedicated buckets for classes `0..next_to_split`, the sole
splittable bucket at position 0 covering the unsplit tail, `indices`
pointing class `c` at bucket `c+1` (dedicated) or `0` (tail), all buckets
within capacity, every stored contact filed under its own distance class,
and no duplicate ids inside a bucket. -/
structure Inv (me : NodeID) (s : KBuckets) : Prop where
  ilen : s.indices.length = 256
  nts_le : s.next_to_split ≤ 252
  blen : s.k_buckets.length = s.next_to_split + 1
  idx : ∀ cls : Nat, cls < 256 → s.indices[cls]? = some (targetBucket s cls)
  split : ∀ (j : Nat) (b : KBucket), s.k_buckets[j]? = some b → (b.can_split = true ↔ j = 0)
  size : ∀ (j : Nat) (b : KBucket), s.k_buckets[j]? = some b → b.contacts.length ≤ K
  wf : ∀ (j : Nat) (b : KBucket), s.k_buckets[j]? = some b → ∀ c ∈ b.contacts, c.id.WF
  loc : ∀ (j : Nat) (b : KBucket), s.k_buckets[j]? = some b → ∀ c ∈ b.contacts,
          distanceClass me c.id < 256 ∧ targetBucket s (distanceClass me c.id) = j
  nodup : ∀ (j : Nat) (b : KBucket), s.k_buckets[j]? = some b → (b.contacts.map Contact.id).Nodup

theorem targetBucket_set_buckets (s : KBuckets) (l : List KBucket) (cls : Nat) :
    targetBucket { s with k_buckets := l } cls = targetBucket s cls := rfl

theorem targetBucket_lt {me : NodeID} {s : KBuckets} (hs : Inv me s) (cls : Nat) :
    targetBucket s cls < s.k_buckets.length := by
  have := hs.blen
  unfold targetBucket
  split <;> omega

theorem singleton_getElem? {α : Type} (x : α) (j : Nat) (b : α)
    (h : ([x] : List α)[j]? = some b) : j = 0 ∧ b = x := by
  cases j with
  | zero => simp at h; exact ⟨rfl, h.symm⟩
  | succ n => simp at h

theorem inv_new (me : NodeID) : Inv me KBuckets.new := by
  refine ⟨?_, ?_, ?_, ?_, ?_, ?_, ?_, ?_, ?_⟩
  · simp only [KBuckets.new, List.length_replicate]; rfl
  · exact Nat.zero_le 252
  · simp [KBuckets.new]
  · intro cls hcls
    simp only [KBuckets.new, List.getElem?_replicate, KEY_BITS]
    rw [if_pos hcls]
    unfold targetBucket
    simp [KBuckets.new]
  · intro j b hj
    obtain ⟨rfl, rfl⟩ := singleton_getElem? _ j b hj
    simp
  · intro j b hj
    obtain ⟨rfl, rfl⟩ := singleton_getElem? _ j b hj
    simp [K]
  · intro j b hj
    obtain ⟨rfl, rfl⟩ := singleton_getElem? _ j b hj
    simp
  · intro j b hj
    obtain ⟨rfl, rfl⟩ := singleton_getElem? _ j b hj
    simp
  · intro j b hj
    obtain ⟨rfl, rfl⟩ := singleton_getElem? _ j b hj
    simp

theorem getElem?_set_cases {α : Type} (l : List α) (bi : Nat) (a : α) (j : Nat)
    (hbi : bi < l.length) :
    (l.set bi a)[j]? = if j = bi then some a else l[j]? := by
  by_cases h : j = bi
  · subst h; rw [if_pos rfl]; exact List.getElem?_set_eq_of_lt a hbi
  · rw [if_neg h]; exact List.getElem?_set_ne (fun hh => h hh.symm)

/-- Replacing the bucket at a valid index by one with the same split flag,
within capacity, holding only correctly-filed distinct contacts, preserves
the invariant. -/
theorem inv_replace_bucket {me : NodeID} {s : KBuckets} {bi : Nat} {kb kb2 : KBucket}
    (hs : Inv me s)
    (hkb : s.k_buckets[bi]? = some kb)
    (hcs : kb2.can_split = kb.can_split)
    (hlen2 : kb2.contacts.length ≤ K)
    (hsub : ∀ c ∈ kb2.contacts,
      c.id.WF ∧ distanceClass me c.id < 256 ∧ targetBucket s (distanceClass me c.id) = bi)
    (hnd2 : (kb2.contacts.map Contact.id).Nodup) :
    Inv me { s with k_buckets := s.k_buckets.set bi kb2 } := by
  have hbilt : bi < s.k_buckets.length := (List.getElem?_eq_some.mp hkb).1
  have hget : ∀ j, (s.k_buckets.set bi kb2)[j]? = if j = bi then some kb2 else s.k_buckets[j]? :=
    fun j => getElem?_set_cases _ _ _ _ hbilt
  refine ⟨hs.ilen, hs.nts_le, ?_, ?_, ?_, ?_, ?_, ?_, ?_⟩
  · simp only [List.length_set]; exact hs.blen
  · intro cls hcls
    exact hs.idx cls hcls
  · intro j b hj
    rw [hget j] at hj
    split_ifs at hj with hjbi
    · rw [Option.some.injEq] at hj
      rw [← hj, hcs, hjbi]
      exact hs.split bi kb hkb
    · exact hs.split j b hj
  · intro j b hj
    rw [hget j] at hj
    split_ifs at hj with hjbi
    · rw [Option.some.injEq] at hj; rw [← hj]; exact hlen2
    · exact hs.size j b hj
  · intro j b hj
    rw [hget j] at hj
    split_ifs at hj with hjbi
    · rw [Option.some.injEq] at hj
      intro c hc
      rw [← hj] at hc
      exact (hsub c hc).1
    · exact hs.wf j b hj
  · intro j b hj c hc
    rw [hget j] at hj
    split_ifs at hj with hjbi
    · rw [Option.some.injEq] at hj
      rw [← hj] at hc
      refine ⟨(hsub c hc).2.1, ?_⟩
      show targetBucket s (distanceClass me c.id) = j
      rw [hjbi]
      exact (hsub c hc).2.2
    · obtain ⟨h1, h2⟩ := hs.loc j b hj c hc
      exact ⟨h1, h2⟩
  · intro j b hj
    rw [hget j] at hj
    split_ifs at hj with hjbi
    · rw [Option.some.injEq] at hj; rw [← hj]; exact hnd2
    · exact hs.nodup j b hj

theorem idMem_set_of_subset {s : KBuckets} {bi : Nat} {kb kb2 : KBucket}
    (hkb : s.k_buckets[bi]? = some kb)
    (hsub : ∀ c ∈ kb.contacts, ∃ d ∈ kb2.contacts, d.id = c.id) :
    ∀ x, idMem s x → idMem { s with k_buckets := s.k_buckets.set bi kb2 } x := by
  have hbilt : bi < s.k_buckets.length := (List.getElem?_eq_some.mp hkb).1
  have hget : ∀ j, (s.k_buckets.set bi kb2)[j]? = if j = bi then some kb2 else s.k_buckets[j]? :=
    fun j => getElem?_set_cases _ _ _ _ hbilt
  rintro x ⟨j, b, hj, c, hc, hcx⟩
  by_cases hjbi : j = bi
  · subst hjbi
    rw [hj] at hkb
    rw [Option.some.injEq] at hkb; subst hkb
    obtain ⟨d, hd, hdc⟩ := hsub c hc
    exact ⟨j, kb2, by rw [hget j, if_pos rfl], d, hd, by rw [hdc, hcx]⟩
  · exact ⟨j, b, by rw [hget j, if_neg hjbi]; exact hj, c, hc, hcx⟩

theorem idMem_set_self {s : KBuckets} {bi : Nat} {kb2 : KBucket}
    (hbi : bi < s.k_buckets.length) {c : Contact} (hc : c ∈ kb2.contacts) :
    idMem { s with k_buckets := s.k_buckets.set bi kb2 } c.id :=
  ⟨bi, kb2, by rw [getElem?_set_cases _ _ _ _ hbi, if_pos rfl], c, hc, rfl⟩

theorem idMem_set_mem {s : KBuckets} {bi : Nat} {kb2 : KBucket}
    (hbi : bi < s.k_buckets.length) {c : Contact} (hc : c ∈ kb2.contacts) (x : NodeID)
    (hx : c.id = x) :
    idMem { s with k_buckets := s.k_buckets.set bi kb2 } x :=
  ⟨bi, kb2, by rw [getElem?_set_cases _ _ _ _ hbi, if_pos rfl], c, hc, hx⟩

end Dht

namespace Dht

theorem filter_length_cons_le {α : Type} (p : α → Bool) (c : α) (l : List α) :
    (l.filter p).length ≤ ((c :: l).filter p).length := by
  rw [List.filter_cons]
  split <;> simp

/-- `insert_unchecked` over a list of fresh, correctly-classed, distinct
contacts succeeds, preserves the invariant, and adds exactly those contacts,
provided no target bucket is driven over capacity. -/
theorem redistribute_spec {me : NodeID} :
    ∀ (cs : List Contact) (s : KBuckets), Inv me s →
    (∀ c ∈ cs, c.id.WF) →
    (∀ c ∈ cs, distanceClass me c.id < 256) →
    (∀ c ∈ cs, ¬ idMem s c.id) →
    ((cs.map Contact.id).Nodup) →
    (∀ (j : Nat) (b : KBucket), s.k_buckets[j]? = some b →
      b.contacts.length +
        (cs.filter (fun c => targetBucket s (distanceClass me c.id) == j)).length ≤ K) →
    ∃ s2, redistribute me cs s = some s2 ∧ Inv me s2 ∧
      s2.indices = s.indices ∧ s2.next_to_split = s.next_to_split ∧
      (∀ x, idMem s x → idMem s2 x) ∧ (∀ c ∈ cs, idMem s2 c.id) := by
  intro cs
  induction cs with
  | nil =>
    intro s hs _ _ _ _ _
    exact ⟨s, rfl, hs, rfl, rfl, fun _ h => h, fun c hc => absurd hc (List.not_mem_nil c)⟩
  | cons c cs ih =>
    intro s hs hwfs hclt hnot hnd hacc
    have hcwf : c.id.WF := hwfs c (List.mem_cons_self c cs)
    have hccls : distanceClass me c.id < 256 := hclt c (List.mem_cons_self c cs)
    set cls := distanceClass me c.id with hcls_def
    set j := targetBucket s cls with hj_def
    have hj : s.indices[cls]? = some j := hs.idx cls hccls
    have hjlt : j < s.k_buckets.length := targetBucket_lt hs cls
    obtain ⟨kb, hkb⟩ : ∃ kb, s.k_buckets[j]? = some kb :=
      ⟨s.k_buckets[j], List.getElem?_eq_getElem hjlt⟩
    set kb2 : KBucket := { kb with contacts := kb.contacts ++ [c] } with hkb2_def
    set s' : KBuckets := { s with k_buckets := s.k_buckets.set j kb2 } with hs'_def
    have heq : s.insert_unchecked me c = some s' := by
      simp only [KBuckets.insert_unchecked, ← hcls_def, hj, hkb]
    -- the new contact lands exactly once in the count for bucket j
    have hcount := hacc j kb hkb
    rw [List.filter_cons] at hcount
    have hcj : (targetBucket s cls == j) = true := by rw [beq_iff_eq]
    rw [← hcls_def, hcj] at hcount
    simp only [if_true, List.length_cons] at hcount
    have hlen2 : kb2.contacts.length ≤ K := by
      rw [hkb2_def]
      simp only [List.length_append, List.length_singleton]
      omega
    have hnotbucket : ∀ d ∈ kb.contacts, d.id ≠ c.id := by
      intro d hd hdc
      exact hnot c (List.mem_cons_self c cs) ⟨j, kb, hkb, d, hd, hdc⟩
    have hnd2 : (kb2.contacts.map Contact.id).Nodup := by
      rw [hkb2_def]
      simp only [List.map_append, List.map_cons, List.map_nil]
      rw [List.nodup_append]
      refine ⟨hs.nodup j kb hkb, List.nodup_singleton _, ?_⟩
      intro x hx hx1
      rw [List.mem_singleton] at hx1
      rw [List.mem_map] at hx
      obtain ⟨d, hd, hdx⟩ := hx
      exact hnotbucket d hd (by rw [hdx, hx1])
    have hsub : ∀ d ∈ kb2.contacts,
        d.id.WF ∧ distanceClass me d.id < 256 ∧ targetBucket s (distanceClass me d.id) = j := by
      intro d hd
      rw [hkb2_def] at hd
      simp only [List.mem_append, List.mem_singleton] at hd
      rcases hd with hd | rfl
      · obtain ⟨h1, h2⟩ := hs.loc j kb hkb d hd
        exact ⟨hs.wf j kb hkb d hd, h1, h2⟩
      · exact ⟨hcwf, hccls, rfl⟩
    have hinv' : Inv me s' := inv_replace_bucket hs hkb rfl hlen2 hsub hnd2
    have hmono : ∀ x, idMem s x → idMem s' x := by
      apply idMem_set_of_subset hkb
      intro d hd
      exact ⟨d, by rw [hkb2_def]; exact List.mem_append_left _ hd, rfl⟩
    have hcin : idMem s' c.id :=
      idMem_set_self hjlt (by rw [hkb2_def]; exact List.mem_append_right _ (List.mem_singleton_self c))
    -- hypotheses for the tail
    have hget' : ∀ j', (s.k_buckets.set j kb2)[j']? = if j' = j then some kb2 else s.k_buckets[j']? :=
      fun j' => getElem?_set_cases _ _ _ _ hjlt
    have hhd : c.id ∉ cs.map Contact.id := by
      rw [List.map_cons, List.nodup_cons] at hnd
      exact hnd.1
    have hnot' : ∀ d ∈ cs, ¬ idMem s' d.id := by
      rintro d hd ⟨j', b', hj', w, hw, hwd⟩
      rw [hget' j'] at hj'
      split_ifs at hj' with hj'j
      · rw [Option.some.injEq] at hj'
        rw [← hj', hkb2_def] at hw
        simp only [List.mem_append, List.mem_singleton] at hw
        rcases hw with hw | heq
        · exact hnot d (List.mem_cons_of_mem c hd) ⟨j, kb, hkb, w, hw, hwd⟩
        · exact hhd (List.mem_map.mpr ⟨d, hd, by rw [← hwd, heq]⟩)
      · exact hnot d (List.mem_cons_of_mem c hd) ⟨j', b', hj', w, hw, hwd⟩
    have hacc' : ∀ (j' : Nat) (b' : KBucket), s'.k_buckets[j']? = some b' →
        b'.contacts.length +
          (cs.filter (fun d => targetBucket s' (distanceClass me d.id) == j')).length ≤ K := by
      intro j' b' hj'
      have hfeq : (cs.filter (fun d => targetBucket s' (distanceClass me d.id) == j')) =
          (cs.filter (fun d => targetBucket s (distanceClass me d.id) == j')) := rfl
      rw [hfeq]
      rw [show s'.k_buckets = s.k_buckets.set j kb2 from rfl, hget' j'] at hj'
      split_ifs at hj' with hj'j
      · rw [Option.some.injEq] at hj'
        rw [← hj', hkb2_def]
        simp only [List.length_append, List.length_singleton]
        rw [hj'j]
        omega
      · have := hacc j' b' hj'
        rw [List.filter_cons] at this
        have hle := filter_length_cons_le
          (fun d => targetBucket s (distanceClass me d.id) == j') c cs
        rw [List.filter_cons] at hle
        split_ifs at this hle with hcond
        · simp only [List.length_cons] at this
          omega
        · omega
    obtain ⟨s2, heq2, hinv2, hidx2, hnts2, hmono2, hmem2⟩ :=
      ih s' hinv' (fun d hd => hwfs d (List.mem_cons_of_mem c hd))
        (fun d hd => hclt d (List.mem_cons_of_mem c hd)) hnot'
        (by rw [List.map_cons, List.nodup_cons] at hnd; exact hnd.2) hacc'
    refine ⟨s2, ?_, hinv2, ?_, ?_, ?_, ?_⟩
    · simp only [redistribute, heq, heq2]
    · rw [hidx2]
    · rw [hnts2]
    · intro x hx; exact hmono2 x (hmono x hx)
    · intro d hd
      rcases List.mem_cons.mp hd with rfl | hd'
      · exact hmono2 d.id hcin
      · exact hmem2 d hd'

end Dht

namespace Dht

theorem find?_decomp {α : Type} (p : α → Bool) :
    ∀ (l : List α) (a : α), l.find? p = some a →
      ∃ l1 l2, l = l1 ++ a :: l2 ∧ (∀ b ∈ l1, p b = false) ∧ l.eraseP p = l1 ++ l2 := by
  intro l
  induction l with
  | nil => intro a h; simp [List.find?] at h
  | cons x xs ih =>
    intro a h
    by_cases hpx : p x = true
    · rw [List.find?_cons_of_pos xs hpx] at h
      rw [Option.some.injEq] at h
      subst h
      exact ⟨[], xs, rfl, by simp, by rw [List.eraseP_cons_of_pos hpx]; rfl⟩
    · rw [List.find?_cons_of_neg xs hpx] at h
      obtain ⟨l1, l2, hd, hl1, he⟩ := ih a h
      refine ⟨x :: l1, l2, by rw [hd]; rfl, ?_, ?_⟩
      · intro b hb
        rcases List.mem_cons.mp hb with rfl | hb'
        · exact Bool.not_eq_true _ ▸ (by simpa using hpx)
        · exact hl1 b hb'
      · rw [List.eraseP_cons_of_neg hpx, he]; rfl

theorem cons_concat_getElem?_zero (bT bF : KBucket) (rest : List KBucket) :
    (bT :: (rest ++ [bF]))[0]? = some bT := List.getElem?_cons_zero

theorem cons_concat_getElem?_mid (bT bF : KBucket) (rest : List KBucket) (i : Nat)
    (hi : i < rest.length) : (bT :: (rest ++ [bF]))[i + 1]? = rest[i]? := by
  simp only [List.getElem?_cons_succ, List.getElem?_append, if_pos hi]

theorem cons_concat_getElem?_last (bT bF : KBucket) (rest : List KBucket) :
    (bT :: (rest ++ [bF]))[rest.length + 1]? = some bF := by
  simp only [List.getElem?_cons_succ, List.getElem?_concat_length]

theorem cons_concat_getElem?_cases (bT bF : KBucket) (rest : List KBucket)
    (j : Nat) (b : KBucket) (h : (bT :: (rest ++ [bF]))[j]? = some b) :
    (j = 0 ∧ b = bT) ∨ (∃ i, j = i + 1 ∧ i < rest.length ∧ rest[i]? = some b) ∨
      (j = rest.length + 1 ∧ b = bF) := by
  cases j with
  | zero =>
    rw [cons_concat_getElem?_zero, Option.some.injEq] at h
    exact Or.inl ⟨rfl, h.symm⟩
  | succ i =>
    by_cases hi : i < rest.length
    · rw [cons_concat_getElem?_mid bT bF rest i hi] at h
      exact Or.inr (Or.inl ⟨i, rfl, hi, h⟩)
    · rw [List.getElem?_cons_succ, List.getElem?_append, if_neg hi] at h
      obtain ⟨h0, hb⟩ := singleton_getElem? bF (i - rest.length) b h
      have : i = rest.length := by omega
      exact Or.inr (Or.inr ⟨by omega, hb⟩)

theorem swapRemoveZero_eq (x : KBucket) (l : List KBucket) (a b : KBucket) :
    swapRemoveZero (x :: (l ++ [a, b])) = some (x, b :: (l ++ [a])) := by
  have h1 : (l ++ [a, b]).getLast? = some b := by
    rw [show l ++ [a, b] = (l ++ [a]) ++ [b] by simp, List.getLast?_concat]
  have h2 : (l ++ [a, b]).dropLast = l ++ [a] := by
    rw [show l ++ [a, b] = (l ++ [a]) ++ [b] by simp, List.dropLast_concat]
  simp only [swapRemoveZero, h1, h2]

end Dht

namespace Dht

theorem insertA_step_found (me : NodeID) (fuel : Nat) (contact : Contact) (s : KBuckets) {bi : Nat}
    (kb : KBucket) (old : Contact)
    (hcls : distanceClass me contact.id < 256)
    (hj : s.indices[distanceClass me contact.id]? = some bi)
    (hkb : s.k_buckets[bi]? = some kb)
    (hfind : kb.contacts.find? (fun c => contact.id == c.id) = some old) :
    insertA me (fuel + 1) contact s =
      let kb2 : KBucket :=
        { kb with contacts := (kb.contacts.eraseP (fun c => contact.id == c.id)) ++ [old] }
      some ({ s with k_buckets := s.k_buckets.set bi kb2 },
        Except.ok ()) := by
  simp only [insertA, hcls, if_true, hj, hkb, hfind]

theorem insertA_step_append (me : NodeID) (fuel : Nat) (contact : Contact) (s : KBuckets) {bi : Nat}
    (kb : KBucket)
    (hcls : distanceClass me contact.id < 256)
    (hj : s.indices[distanceClass me contact.id]? = some bi)
    (hkb : s.k_buckets[bi]? = some kb)
    (hfind : kb.contacts.find? (fun c => contact.id == c.id) = none)
    (hlenK : ¬ kb.contacts.length = K) :
    insertA me (fuel + 1) contact s =
      let kb2 : KBucket := { kb with contacts := kb.contacts ++ [contact] }
      some ({ s with k_buckets := s.k_buckets.set bi kb2 },
        Except.ok ()) := by
  simp only [insertA, hcls, if_true, hj, hkb, hfind, hlenK, if_false]

theorem insertA_step_error (me : NodeID) (fuel : Nat) (contact : Contact) (s : KBuckets) {bi : Nat}
    (kb : KBucket) (front : Contact)
    (hcls : distanceClass me contact.id < 256)
    (hj : s.indices[distanceClass me contact.id]? = some bi)
    (hkb : s.k_buckets[bi]? = some kb)
    (hfind : kb.contacts.find? (fun c => contact.id == c.id) = none)
    (hlenK : kb.contacts.length = K)
    (hcan : kb.can_split = false)
    (hhead : kb.contacts.head? = some front) :
    insertA me (fuel + 1) contact s = some (s, Except.error front) := by
  simp only [insertA, hcls, if_true, hj, hkb, hfind, hlenK, hcan, if_pos rfl, Bool.false_eq_true,
    if_false, hhead]

theorem insertA_step_split (me : NodeID) (fuel : Nat) (contact : Contact) (s : KBuckets) {bi : Nat}
    (kb ob : KBucket) (ks2 : List KBucket) (s2 : KBuckets)
    (hcls : distanceClass me contact.id < 256)
    (hj : s.indices[distanceClass me contact.id]? = some bi)
    (hkb : s.k_buckets[bi]? = some kb)
    (hfind : kb.contacts.find? (fun c => contact.id == c.id) = none)
    (hlenK : kb.contacts.length = K)
    (hcan : kb.can_split = true)
    (hswap : swapRemoveZero (s.k_buckets ++ [⟨false, []⟩, ⟨true, []⟩]) = some (ob, ks2))
    (hguard : s.next_to_split < s.indices.length)
    (hred : redistribute me ob.contacts
        { indices := s.indices.set s.next_to_split ((ks2.length - 1) % 256)
          next_to_split := s.next_to_split + 1
          k_buckets := ks2 } = some s2) :
    insertA me (fuel + 1) contact s = insertA me fuel contact s2 := by
  simp only [insertA, hcls, if_true, hj, hkb, hfind, hlenK, hcan, if_pos rfl, hswap, hguard, hred]

end Dht

namespace Dht

/-- Main lemma: with enough fuel, inserting a well-formed foreign contact
into an invariant-satisfying table never panics, preserves the invariant,
keeps every stored id findable, and stores the inserted id on success. -/
theorem insertA_spec (me : NodeID) (hme : me.WF) :
    ∀ (fuel : Nat) (s : KBuckets) (contact : Contact), Inv me s → contact.id.WF →
      contact.id ≠ me → 252 - s.next_to_split < fuel →
      ∃ s' r, insertA me fuel contact s = some (s', r) ∧ Inv me s' ∧
        (∀ x, idMem s x → idMem s' x) ∧
        (r = Except.ok () → idMem s' contact.id) := by
  intro fuel
  induction fuel with
  | zero => intro s contact _ _ _ hf; exact absurd hf (by omega)
  | succ fuel ih =>
    intro s contact hs hwf hne hf
    have hcls : distanceClass me contact.id < 256 := distanceClass_lt me contact.id hme hwf hne
    have hj : s.indices[distanceClass me contact.id]? =
        some (targetBucket s (distanceClass me contact.id)) := hs.idx _ hcls
    have hbilt : targetBucket s (distanceClass me contact.id) < s.k_buckets.length :=
      targetBucket_lt hs _
    obtain ⟨kb, hkb⟩ : ∃ kb, s.k_buckets[targetBucket s (distanceClass me contact.id)]? = some kb :=
      ⟨_, List.getElem?_eq_getElem hbilt⟩
    cases hfind : kb.contacts.find? (fun c => contact.id == c.id) with
    | some old =>
      obtain ⟨l1, l2, hdec, _, herase⟩ := find?_decomp _ kb.contacts old hfind
      have holdid : contact.id = old.id := by
        have hp := List.find?_some hfind
        simp only [beq_iff_eq] at hp
        exact hp
      have heq := insertA_step_found me fuel contact s kb old hcls hj hkb hfind
      have hperm : ((kb.contacts.eraseP (fun c => contact.id == c.id)) ++ [old]).Perm
          kb.contacts := by
        rw [herase]
        conv_rhs => rw [hdec]
        rw [List.append_assoc]
        exact List.Perm.append_left l1 List.perm_append_comm
      refine ⟨_, _, heq, ?_, ?_, ?_⟩
      · refine inv_replace_bucket hs hkb rfl ?_ ?_ ?_
        · show ((kb.contacts.eraseP (fun c => contact.id == c.id)) ++ [old]).length ≤ K
          rw [hperm.length_eq]
          exact hs.size _ kb hkb
        · intro d hd
          have hdkb : d ∈ kb.contacts := hperm.mem_iff.mp hd
          exact ⟨hs.wf _ kb hkb d hdkb, (hs.loc _ kb hkb d hdkb).1, (hs.loc _ kb hkb d hdkb).2⟩
        · exact ((hperm.map Contact.id).nodup_iff).mpr (hs.nodup _ kb hkb)
      · exact idMem_set_of_subset hkb (fun d hd => ⟨d, hperm.mem_iff.mpr hd, rfl⟩)
      · intro _
        refine idMem_set_mem hbilt ?_ contact.id holdid.symm
        exact List.mem_append_right _ (List.mem_singleton_self old)
    | none =>
      by_cases hlenK : kb.contacts.length = K
      · by_cases hcan : kb.can_split = true
        · -- split case
          have hbi0 : targetBucket s (distanceClass me contact.id) = 0 :=
            (hs.split _ kb hkb).mp hcan
          have hkb0 : s.k_buckets[0]? = some kb := by rw [← hbi0]; exact hkb
          have hcls0 : ∀ d ∈ kb.contacts, s.next_to_split ≤ distanceClass me d.id := by
            intro d hd
            have h2 := (hs.loc 0 kb hkb0 d hd).2
            by_contra hlt2
            push_neg at hlt2
            unfold targetBucket at h2
            rw [if_pos hlt2] at h2
            omega
          have ht251 : s.next_to_split ≤ 251 := by
            by_contra h252
            push_neg at h252
            have ht : s.next_to_split = 252 := by have := hs.nts_le; omega
            have hcount := length_le_of_class_ge_252 me hme kb.contacts
              (hs.wf 0 kb hkb0)
              (fun d hd => by have := hcls0 d hd; omega)
              (fun d hd => (hs.loc 0 kb hkb0 d hd).1)
              (hs.nodup 0 kb hkb0)
            rw [hlenK] at hcount
            rw [show K = 20 from rfl] at hcount
            omega
          obtain ⟨rest, hksb⟩ : ∃ rest, s.k_buckets = kb :: rest := by
            cases hv : s.k_buckets with
            | nil => rw [hv] at hkb0; simp at hkb0
            | cons b0 rest =>
              rw [hv, List.getElem?_cons_zero, Option.some.injEq] at hkb0
              exact ⟨rest, by rw [hkb0]⟩
          have hrl : rest.length = s.next_to_split := by
            have hb := hs.blen
            rw [hksb] at hb
            simp only [List.length_cons] at hb
            omega
          have hswap : swapRemoveZero (s.k_buckets ++ [⟨false, []⟩, ⟨true, []⟩]) =
              some (kb, (⟨true, []⟩ : KBucket) :: (rest ++ [⟨false, []⟩])) := by
            rw [hksb]
            exact swapRemoveZero_eq kb rest _ _
          have hguard : s.next_to_split < s.indices.length := by rw [hs.ilen]; omega
          set s1 : KBuckets :=
            { indices := s.indices.set s.next_to_split (s.next_to_split + 1)
              next_to_split := s.next_to_split + 1
              k_buckets := (⟨true, []⟩ : KBucket) :: (rest ++ [⟨false, []⟩]) } with hs1
          have hs1get : ∀ (j : Nat) (b : KBucket), s1.k_buckets[j]? = some b →
              (j = 0 ∧ b = ⟨true, []⟩) ∨
              (∃ i, j = i + 1 ∧ i < rest.length ∧ rest[i]? = some b) ∨
              (j = rest.length + 1 ∧ b = ⟨false, []⟩) := by
            intro j b hjb
            exact cons_concat_getElem?_cases _ _ _ _ _ hjb
          have hrest_s : ∀ (i : Nat) (b : KBucket), rest[i]? = some b →
              s.k_buckets[i + 1]? = some b := by
            intro i b hib
            rw [hksb, List.getElem?_cons_succ]
            exact hib
          have hs1inv : Inv me s1 := by
            refine ⟨?_, ?_, ?_, ?_, ?_, ?_, ?_, ?_, ?_⟩
            · show (s.indices.set s.next_to_split (s.next_to_split + 1)).length = 256
              rw [List.length_set]; exact hs.ilen
            · show s.next_to_split + 1 ≤ 252
              omega
            · show ((⟨true, []⟩ : KBucket) :: (rest ++ [⟨false, []⟩])).length =
                (s.next_to_split + 1) + 1
              simp only [List.length_cons, List.length_append, List.length_singleton,
                List.length_nil]
              omega
            · intro cls2 hcls2
              show (s.indices.set s.next_to_split (s.next_to_split + 1))[cls2]? =
                some (targetBucket s1 cls2)
              rw [getElem?_set_cases s.indices s.next_to_split (s.next_to_split + 1) cls2
                (by rw [hs.ilen]; omega)]
              by_cases hc2 : cls2 = s.next_to_split
              · rw [if_pos hc2]
                have : targetBucket s1 cls2 = s.next_to_split + 1 := by
                  show (if cls2 < s.next_to_split + 1 then cls2 + 1 else 0) = s.next_to_split + 1
                  rw [if_pos (by omega)]
                  omega
                rw [this]
              · rw [if_neg hc2]
                have : targetBucket s1 cls2 = targetBucket s cls2 := by
                  show (if cls2 < s.next_to_split + 1 then cls2 + 1 else 0) =
                    (if cls2 < s.next_to_split then cls2 + 1 else 0)
                  split_ifs <;> omega
                rw [this]
                exact hs.idx cls2 hcls2
            · intro j b hjb
              rcases hs1get j b hjb with ⟨rfl, rfl⟩ | ⟨i, rfl, hilt, hresti⟩ | ⟨rfl, rfl⟩
              · simp
              · exact hs.split (i + 1) b (hrest_s i b hresti)
              · simp
            · intro j b hjb
              rcases hs1get j b hjb with ⟨rfl, rfl⟩ | ⟨i, rfl, hilt, hresti⟩ | ⟨rfl, rfl⟩
              · simp [K]
              · exact hs.size (i + 1) b (hrest_s i b hresti)
              · simp [K]
            · intro j b hjb
              rcases hs1get j b hjb with ⟨rfl, rfl⟩ | ⟨i, rfl, hilt, hresti⟩ | ⟨rfl, rfl⟩
              · intro c hc; simp at hc
              · exact hs.wf (i + 1) b (hrest_s i b hresti)
              · intro c hc; simp at hc
            · intro j b hjb c2 hc2
              rcases hs1get j b hjb with ⟨rfl, rfl⟩ | ⟨i, rfl, hilt, hresti⟩ | ⟨rfl, rfl⟩
              · simp at hc2
              · obtain ⟨h1, h2⟩ := hs.loc (i + 1) b (hrest_s i b hresti) c2 hc2
                refine ⟨h1, ?_⟩
                unfold targetBucket at h2
                split_ifs at h2 with hcc
                show (if distanceClass me c2.id < s.next_to_split + 1
                    then distanceClass me c2.id + 1 else 0) = i + 1
                rw [if_pos (by omega)]
                omega
              · simp at hc2
            · intro j b hjb
              rcases hs1get j b hjb with ⟨rfl, rfl⟩ | ⟨i, rfl, hilt, hresti⟩ | ⟨rfl, rfl⟩
              · simp
              · exact hs.nodup (i + 1) b (hrest_s i b hresti)
              · simp
          have hnot1 : ∀ d ∈ kb.contacts, ¬ idMem s1 d.id := by
            rintro d hd ⟨j, b, hjb, w, hw, hwd⟩
            rcases hs1get j b hjb with ⟨rfl, rfl⟩ | ⟨i, rfl, hilt, hresti⟩ | ⟨rfl, rfl⟩
            · simp at hw
            · have h2 := (hs.loc (i + 1) b (hrest_s i b hresti) w hw).2
              have hwid : distanceClass me w.id = distanceClass me d.id := by rw [hwd]
              rw [hwid] at h2
              have := hcls0 d hd
              unfold targetBucket at h2
              rw [if_neg (by omega)] at h2
              omega
            · simp at hw
          have hacc1 : ∀ (j : Nat) (b : KBucket), s1.k_buckets[j]? = some b →
              b.contacts.length +
                ((kb.contacts.filter
                  (fun d => targetBucket s1 (distanceClass me d.id) == j)).length) ≤ K := by
            intro j b hjb
            have hfle := List.length_filter_le
              (fun d => targetBucket s1 (distanceClass me d.id) == j) kb.contacts
            rcases hs1get j b hjb with ⟨rfl, rfl⟩ | ⟨i, rfl, hilt, hresti⟩ | ⟨rfl, rfl⟩
            · show ([] : List Contact).length + _ ≤ K
              rw [hlenK] at hfle
              simp only [List.length_nil, Nat.zero_add]
              exact hfle
            · have hnilf : (kb.contacts.filter
                  (fun d => targetBucket s1 (distanceClass me d.id) == i + 1)) = [] := by
                rw [List.filter_eq_nil_iff]
                intro d hd
                have hge := hcls0 d hd
                show ¬ (targetBucket s1 (distanceClass me d.id) == i + 1) = true
                rw [beq_iff_eq]
                show ¬ (if distanceClass me d.id < s.next_to_split + 1
                    then distanceClass me d.id + 1 else 0) = i + 1
                split_ifs with hcc
                · omega
                · exact not_false
              rw [hnilf]
              simp only [List.length_nil, Nat.add_zero]
              exact hs.size (i + 1) b (hrest_s i b hresti)
            · show ([] : List Contact).length + _ ≤ K
              rw [hlenK] at hfle
              simp only [List.length_nil, Nat.zero_add]
              exact hfle
          obtain ⟨s2, hred1, hinv2, hidx2, hnts2, hmono2, hmem2⟩ :=
            redistribute_spec kb.contacts s1 hs1inv
              (hs.wf 0 kb hkb0)
              (fun d hd => (hs.loc 0 kb hkb0 d hd).1)
              hnot1
              (hs.nodup 0 kb hkb0)
              hacc1
          have hmod : ((((⟨true, []⟩ : KBucket) :: (rest ++ [⟨false, []⟩])).length - 1) % 256) =
              s.next_to_split + 1 := by
            simp only [List.length_cons, List.length_append, List.length_singleton,
              List.length_nil]
            rw [hrl]
            omega
          have hredm : redistribute me kb.contacts
              { indices := s.indices.set s.next_to_split
                  ((((⟨true, []⟩ : KBucket) :: (rest ++ [⟨false, []⟩])).length - 1) % 256)
                next_to_split := s.next_to_split + 1
                k_buckets := (⟨true, []⟩ : KBucket) :: (rest ++ [⟨false, []⟩]) } = some s2 := by
            rw [hmod]
            exact hred1
          have heq := insertA_step_split me fuel contact s kb kb _ s2 hcls hj hkb hfind hlenK
            hcan hswap hguard hredm
          have hfuel2 : 252 - s2.next_to_split < fuel := by
            rw [hnts2]
            show 252 - (s.next_to_split + 1) < fuel
            omega
          obtain ⟨s', r, heqr, hinv', hmono', hok'⟩ := ih s2 contact hinv2 hwf hne hfuel2
          refine ⟨s', r, ?_, hinv', ?_, hok'⟩
          · rw [heq]; exact heqr
          · intro x hx
            obtain ⟨jj, bb, hjj, d, hd, hdx⟩ := hx
            rw [hksb] at hjj
            cases jj with
            | zero =>
              rw [List.getElem?_cons_zero, Option.some.injEq] at hjj
              rw [← hjj] at hd
              have hmem := hmem2 d hd
              exact hmono' x (hdx ▸ hmem)
            | succ i =>
              rw [List.getElem?_cons_succ] at hjj
              have hilt : i < rest.length := (List.getElem?_eq_some.mp hjj).1
              have hs1b : s1.k_buckets[i + 1]? = some bb :=
                (cons_concat_getElem?_mid _ _ rest i hilt).trans hjj
              exact hmono' x (hmono2 x ⟨i + 1, bb, hs1b, d, hd, hdx⟩)
        · -- full, cannot split: error carrying the front contact
          have hcanf : kb.can_split = false := by
            cases hcs : kb.can_split with
            | false => rfl
            | true => exact absurd hcs hcan
          obtain ⟨front, fs, hkbc⟩ : ∃ front fs, kb.contacts = front :: fs := by
            cases hc : kb.contacts with
            | nil => rw [hc] at hlenK; simp [K] at hlenK
            | cons f fs => exact ⟨f, fs, rfl⟩
          have hhead : kb.contacts.head? = some front := by rw [hkbc]; rfl
          have heq := insertA_step_error me fuel contact s kb front hcls hj hkb hfind hlenK
            hcanf hhead
          exact ⟨s, _, heq, hs, fun _ h => h, fun hok => absurd hok (by simp)⟩
      · -- room in the bucket: append to the back
        have heq := insertA_step_append me fuel contact s kb hcls hj hkb hfind hlenK
        have hnotin : ∀ d ∈ kb.contacts, ¬ ((contact.id == d.id) = true) :=
          List.find?_eq_none.mp hfind
        refine ⟨_, _, heq, ?_, ?_, ?_⟩
        · refine inv_replace_bucket hs hkb rfl ?_ ?_ ?_
          · show (kb.contacts ++ [contact]).length ≤ K
            have := hs.size _ kb hkb
            rw [List.length_append]
            simp only [List.length_singleton]
            omega
          · intro d hd
            rcases List.mem_append.mp hd with hd' | hd'
            · exact ⟨hs.wf _ kb hkb d hd', (hs.loc _ kb hkb d hd').1, (hs.loc _ kb hkb d hd').2⟩
            · rw [List.mem_singleton] at hd'
              subst hd'
              exact ⟨hwf, hcls, rfl⟩
          · show ((kb.contacts ++ [contact]).map Contact.id).Nodup
            rw [List.map_append, List.nodup_append]
            refine ⟨hs.nodup _ kb hkb, by simp, ?_⟩
            intro x hx hx2
            simp only [List.map_cons, List.map_nil, List.mem_singleton] at hx2
            rw [List.mem_map] at hx
            obtain ⟨d, hd, hdx⟩ := hx
            refine hnotin d hd ?_
            rw [beq_iff_eq, hdx, hx2]
        · exact idMem_set_of_subset hkb (fun d hd => ⟨d, List.mem_append_left _ hd, rfl⟩)
        · intro _
          refine idMem_set_self hbilt ?_
          exact List.mem_append_right _ (List.mem_singleton_self contact)

end Dht

namespace Dht

/-- Inserting one's own id trips `assert!(bucket < 256)`: the call panics
(`none`) for every fuel value. -/
theorem insert_self_none (me : NodeID) (hme : me.WF) (c : Contact) (hc : c.id = me) :
    ∀ (fuel : Nat) (s : KBuckets), insertA me fuel c s = none := by
  intro fuel s
  cases fuel with
  | zero => rfl
  | succ fuel =>
    have h256 : distanceClass me c.id = 256 := by rw [hc]; exact distanceClass_self me hme
    simp only [insertA, h256]
    rw [if_neg (by omega)]

/-- Every state reachable by `insert` calls from `KBuckets::new` satisfies
the routing-table invariant. -/
theorem reachable_inv {me : NodeID} (hme : me.WF) {s : KBuckets} (hr : Reachable me s) :
    Inv me s := by
  induction hr with
  | new => exact inv_new me
  | @step s0 s0' c r _ hcwf hins ih =>
    by_cases hcm : c.id = me
    · rw [KBuckets.insert, insert_self_none me hme c hcm 257 s0] at hins
      exact absurd hins (by simp)
    · obtain ⟨s'', r'', heq, hinv, _, _⟩ :=
        insertA_spec me hme 257 s0 c ih hcwf hcm (by have := ih.nts_le; omega)
      rw [KBuckets.insert, heq, Option.some.injEq] at hins
      rw [← (Prod.mk.injEq _ _ _ _).mp hins |>.1]
      exact hinv

/-- A stored id is found by the table's own class-indexed lookup. -/
theorem idMem_findById {me : NodeID} {s : KBuckets} (hinv : Inv me s) (x : NodeID)
    (hmem : idMem s x) : (findById me s x).isSome := by
  obtain ⟨j, b, hj, c, hc, hcx⟩ := hmem
  obtain ⟨h1, h2⟩ := hinv.loc j b hj c hc
  have hdc : distanceClass me x = distanceClass me c.id := by rw [hcx]
  have hidx : s.indices[distanceClass me x]? = some j := by
    rw [hdc, hinv.idx _ h1, h2]
  simp only [findById, hidx, hj]
  rw [List.find?_isSome]
  exact ⟨c, hc, by rw [beq_iff_eq]; exact hcx⟩

/-- Conversely, a successful lookup means the id is stored. -/
theorem findById_idMem {me : NodeID} {s : KBuckets} (x : NodeID)
    (h : (findById me s x).isSome) : idMem s x := by
  cases h1 : s.indices[distanceClass me x]? with
  | none => simp [findById, h1] at h
  | some bi =>
    cases h2 : s.k_buckets[bi]? with
    | none => simp [findById, h1, h2] at h
    | some kb =>
      simp only [findById, h1, h2, List.find?_isSome] at h
      obtain ⟨c, hc, hcx⟩ := h
      rw [beq_iff_eq] at hcx
      exact ⟨bi, kb, h2, c, hc, hcx⟩

end Dht

namespace Dht

/-- C1: the claim says `Kad::handle_command` returns the continuation value
that makes the worker loop in `Dht::start` stop exactly on `Shutdown` and
continue exactly on `Ping`. The code does the opposite: `handle_command`
returns `false` for `Shutdown` and `true` for `Ping`, while the loop is
`if kad.handle_command(cmd) { break }`, so the driver keeps waiting after a
`Shutdown` command and terminates after a `Ping` command. This theorem
evaluates the code at the failing input. -/
theorem c1_driver_loop_polarity_bug :
    kad0.handle_command Command.Shutdown = some (kad0, false) ∧
    (kad0.handle_command (Command.Ping 7)).map Prod.snd = some true ∧
    driverRun kad0 [Command.Shutdown] = some (kad0, false) ∧
    (driverRun kad0 [Command.Ping 7]).map Prod.snd = some true := by
  refine ⟨rfl, rfl, rfl, rfl⟩

/-- C2: in every reachable routing-table state a bucket has
`can_split = true` exactly when it sits at position 0 of the bucket vector,
so at most one bucket is splittable and it is stored at position 0; the
quantification over `Reachable` states shows every `insert` call, splits
included, preserves this. -/
theorem c2_single_splittable_bucket (me : NodeID) (s : KBuckets) (hme : me.WF)
    (hr : Reachable me s) :
    ∀ (j : Nat) (b : KBucket), s.k_buckets[j]? = some b → (b.can_split = true ↔ j = 0) :=
  (reachable_inv hme hr).split

theorem c2_witness :
    (({ can_split := true, contacts := [] } : KBucket).can_split = true ↔ 0 = 0) :=
  c2_single_splittable_bucket zeroId KBuckets.new (by decide) Reachable.new 0
    { can_split := true, contacts := [] } (by decide)

/-- C3: in every reachable state every distance class `0..255` is mapped by
the `indices` array to a valid bucket index, and `insert` on any contact
with a well-formed id distinct from `me` returns `some` — i.e. no lookup in
`insert` or `insert_unchecked` goes out of bounds (out-of-bounds indexing is
modelled as `none`). -/
theorem c3_index_array_total (me : NodeID) (s : KBuckets) (hme : me.WF)
    (hr : Reachable me s) :
    (∀ cls : Nat, cls < 256 →
      ∃ bi : Nat, s.indices[cls]? = some bi ∧ bi < s.k_buckets.length) ∧
    (∀ contact : Contact, contact.id.WF → contact.id ≠ me →
      (s.insert me contact).isSome) := by
  have hinv := reachable_inv hme hr
  constructor
  · intro cls hcls
    exact ⟨targetBucket s cls, hinv.idx cls hcls, targetBucket_lt hinv cls⟩
  · intro c hcwf hcne
    obtain ⟨s', r, heq, _, _, _⟩ :=
      insertA_spec me hme 257 s c hinv hcwf hcne (by have := hinv.nts_le; omega)
    show (insertA me 257 c s).isSome
    rw [heq]
    rfl

theorem c3_witness : (KBuckets.new.insert zeroId ⟨farId 9, 5⟩).isSome :=
  (c3_index_array_total zeroId KBuckets.new (by decide) Reachable.new).2
    ⟨farId 9, 5⟩ (by decide) (by decide)

/-- C4: in every reachable state — i.e. after any sequence of `insert`
calls on ids distinct from `me` — the table has at most 253 buckets and
`next_to_split` never exceeds 252. -/
theorem c4_bucket_count_bound (me : NodeID) (s : KBuckets) (hme : me.WF)
    (hr : Reachable me s) :
    s.k_buckets.length ≤ 253 ∧ s.next_to_split ≤ 252 := by
  have hinv := reachable_inv hme hr
  refine ⟨?_, hinv.nts_le⟩
  rw [hinv.blen]
  have := hinv.nts_le
  omega

theorem c4_witness :
    KBuckets.new.k_buckets.length ≤ 253 ∧ KBuckets.new.next_to_split ≤ 252 :=
  c4_bucket_count_bound zeroId KBuckets.new (by decide) Reachable.new

end Dht

namespace Dht

/-- C5: on a reachable table, a successful `insert` leaves the inserted id
findable through the table's class-indexed lookup, and every id findable
before the call is still findable after it — the split-and-redistribute
cycle never drops a contact (and, as `insertA_spec` shows, never fails). -/
theorem c5_no_contact_lost (me : NodeID) (s s' : KBuckets) (c : Contact)
    (hme : me.WF) (hr : Reachable me s) (hcwf : c.id.WF)
    (hins : s.insert me c = some (s', Except.ok ())) :
    (findById me s' c.id).isSome ∧
    ∀ x : NodeID, (findById me s x).isSome → (findById me s' x).isSome := by
  have hinv := reachable_inv hme hr
  by_cases hcm : c.id = me
  · rw [KBuckets.insert, insert_self_none me hme c hcm 257 s] at hins
    exact absurd hins (by simp)
  · obtain ⟨s'', r'', heq, hinv', hmono, hok⟩ :=
      insertA_spec me hme 257 s c hinv hcwf hcm (by have := hinv.nts_le; omega)
    rw [KBuckets.insert, heq, Option.some.injEq] at hins
    obtain ⟨hs'', hr''⟩ := (Prod.mk.injEq _ _ _ _).mp hins
    rw [hs''] at hinv' hmono hok
    constructor
    · exact idMem_findById hinv' c.id (hok hr'')
    · intro x hx
      exact idMem_findById hinv' x (hmono x (findById_idMem x hx))

theorem c5_witness :
    (findById zeroId oneState (nearId 1)).isSome ∧
    ∀ x : NodeID, (findById zeroId KBuckets.new x).isSome →
      (findById zeroId oneState x).isSome :=
  c5_no_contact_lost zeroId KBuckets.new oneState ⟨nearId 1, 1⟩ (by decide) Reachable.new
    (by decide) (by decide)

/-- C6: when the target bucket resolved for the contact's distance class is
full (exactly `K` entries), cannot split, and does not already hold the
contact's id, `insert` returns the failure carrying the bucket's front
(least-recently-seen) contact, and the returned table state is exactly the
input state. -/
theorem c6_full_bucket_rejects_unchanged (me : NodeID) (s : KBuckets) (c : Contact)
    (bi : Nat) (kb : KBucket) (front : Contact)
    (hcls : distanceClass me c.id < 256)
    (hidx : s.indices[distanceClass me c.id]? = some bi)
    (hkb : s.k_buckets[bi]? = some kb)
    (hcan : kb.can_split = false)
    (hfull : kb.contacts.length = K)
    (hnot : ∀ x ∈ kb.contacts, ¬ (c.id = x.id))
    (hfront : kb.contacts.head? = some front) :
    s.insert me c = some (s, Except.error front) := by
  have hfind : kb.contacts.find? (fun d => c.id == d.id) = none :=
    List.find?_eq_none.mpr (fun x hx => by simp only [beq_iff_eq]; exact hnot x hx)
  show insertA me (256 + 1) c s = some (s, Except.error front)
  exact insertA_step_error me 256 c s kb front hcls hidx hkb hfind hfull hcan hfront

theorem c6_witness :
    fullState.insert zeroId ⟨farId 235, 7⟩ =
      some (fullState, Except.error ⟨farId 255, 6060⟩) :=
  c6_full_bucket_rejects_unchanged zeroId fullState ⟨farId 235, 7⟩ 1 fullBucket
    ⟨farId 255, 6060⟩ (by decide) (by decide) (by decide) (by decide) (by decide)
    (by decide) (by decide)

/-- C8 (amended): re-inserting a contact whose id is already present moves
the *stored* entry to the back of its bucket and returns success; bucket
sizes are unchanged everywhere; the entry that ends up at the back is the
previously stored contact `old` (same id, and the stored address — the new
call's address is discarded, contrary to the original claim). -/
theorem c8_reinsert_moves_stored_entry_to_back (me : NodeID) (s : KBuckets) (c : Contact)
    (bi : Nat) (kb : KBucket) (old : Contact)
    (hcls : distanceClass me c.id < 256)
    (hidx : s.indices[distanceClass me c.id]? = some bi)
    (hkb : s.k_buckets[bi]? = some kb)
    (hfound : kb.contacts.find? (fun d => c.id == d.id) = some old) :
    ∃ s' : KBuckets, s.insert me c = some (s', Except.ok ()) ∧
      s'.k_buckets[bi]? =
        some ⟨kb.can_split, (kb.contacts.eraseP (fun d => c.id == d.id)) ++ [old]⟩ ∧
      ((kb.contacts.eraseP (fun d => c.id == d.id)) ++ [old]).length = kb.contacts.length ∧
      ((kb.contacts.eraseP (fun d => c.id == d.id)) ++ [old]).getLast? = some old ∧
      old.id = c.id ∧ old ∈ kb.contacts ∧
      (∀ j : Nat, j ≠ bi → s'.k_buckets[j]? = s.k_buckets[j]?) := by
  have hbi : bi < s.k_buckets.length := (List.getElem?_eq_some.mp hkb).1
  have heq := insertA_step_found me 256 c s kb old hcls hidx hkb hfound
  obtain ⟨l1, l2, hdec, _, herase⟩ := find?_decomp _ kb.contacts old hfound
  set kb2 : KBucket := ⟨kb.can_split, (kb.contacts.eraseP (fun d => c.id == d.id)) ++ [old]⟩ with hkb2
  refine ⟨{ s with k_buckets := s.k_buckets.set bi kb2 }, ?_, ?_, ?_, ?_, ?_, ?_, ?_⟩
  · show insertA me (256 + 1) c s = _
    exact heq
  · show (s.k_buckets.set bi kb2)[bi]? = some kb2
    rw [getElem?_set_cases _ _ _ _ hbi, if_pos rfl]
  · rw [herase, hdec]
    simp only [List.length_append, List.length_cons, List.length_singleton, List.length_nil]
    omega
  · rw [List.getLast?_concat]
  · have hp := List.find?_some hfound
    simp only [beq_iff_eq] at hp
    exact hp.symm
  · exact List.mem_of_find?_eq_some hfound
  · intro j hj
    show (s.k_buckets.set bi kb2)[j]? = s.k_buckets[j]?
    exact List.getElem?_set_ne (fun hh => hj hh.symm)

theorem c8_witness :
    ∃ s' : KBuckets, oneState.insert zeroId ⟨nearId 1, 2⟩ = some (s', Except.ok ()) ∧
      s'.k_buckets[0]? =
        some ⟨true, (([⟨nearId 1, 1⟩] : List Contact).eraseP
          (fun d : Contact => (⟨nearId 1, (2 : Addr)⟩ : Contact).id == d.id)) ++ ([⟨nearId 1, 1⟩] : List Contact)⟩ ∧
      ((([⟨nearId 1, 1⟩] : List Contact).eraseP
          (fun d : Contact => (⟨nearId 1, (2 : Addr)⟩ : Contact).id == d.id)) ++ ([⟨nearId 1, 1⟩] : List Contact)).length =
        ([⟨nearId 1, 1⟩] : List Contact).length ∧
      ((([⟨nearId 1, 1⟩] : List Contact).eraseP
          (fun d : Contact => (⟨nearId 1, (2 : Addr)⟩ : Contact).id == d.id)) ++ ([⟨nearId 1, 1⟩] : List Contact)).getLast? =
        some ⟨nearId 1, 1⟩ ∧
      (⟨nearId 1, (1 : Addr)⟩ : Contact).id = (⟨nearId 1, (2 : Addr)⟩ : Contact).id ∧
      (⟨nearId 1, (1 : Addr)⟩ : Contact) ∈ ([⟨nearId 1, 1⟩] : List Contact) ∧
      (∀ j : Nat, j ≠ 0 → s'.k_buckets[j]? = oneState.k_buckets[j]?) :=
  c8_reinsert_moves_stored_entry_to_back zeroId oneState ⟨nearId 1, 2⟩ 0
    ⟨true, [⟨nearId 1, 1⟩]⟩ ⟨nearId 1, 1⟩ (by decide) (by decide) (by decide) (by decide)

/-- C8 counterexample to the claim as stated: re-inserting id `nearId 1`
with the new address `2` returns success but leaves the stored address `1`
in the table — the address of the new call is *not* stored. -/
theorem c8_counterexample :
    KBuckets.insert oneState zeroId ⟨nearId 1, 2⟩ = some (oneState, Except.ok ()) ∧
    (findById zeroId oneState (nearId 1)).map Contact.addr = some 1 ∧ (1 : Nat) ≠ 2 := by
  refine ⟨by decide, by decide, by decide⟩

end Dht

namespace Dht

/-- C7: `handle_packet` on a well-formed foreign sender always attempts the
routing-table insertion (the table becomes whatever `insert` returns, and
the `Ok`/`Err` result is discarded — an `Err` changes nothing else about the
call); on `Ping` exactly one `Pong` addressed to the packet's source,
carrying the request's sequence number and this node's id, is enqueued; on
`Pong` nothing is enqueued. -/
theorem c7_handle_packet_reply (k : Kad) (pack : Packet) (peer : Addr)
    (hconn : k.connected = true)
    (hme : k.id.WF) (hid : pack.id.WF) (hne : pack.id ≠ k.id)
    (hr : Reachable k.id k.known_peers) :
    ∃ (kp : KBuckets) (r : Except Contact Unit),
      k.known_peers.insert k.id { id := pack.id, addr := peer } = some (kp, r) ∧
      k.handle_packet pack peer = some { k with known_peers := kp, sent := k.sent ++
        (match pack.payload with
         | Payload.Ping => [({ id := k.id, seq_num := pack.seq_num, payload := Payload.Pong }, peer)]
         | Payload.Pong => []) } := by
  have hinv := reachable_inv hme hr
  obtain ⟨kp, r, heq, _, _, _⟩ :=
    insertA_spec k.id hme 257 k.known_peers { id := pack.id, addr := peer } hinv hid hne
      (by have := hinv.nts_le; omega)
  have heq' : k.known_peers.insert k.id { id := pack.id, addr := peer } = some (kp, r) := heq
  refine ⟨kp, r, heq', ?_⟩
  cases hp : pack.payload with
  | Ping => simp [Kad.handle_packet, heq', hp, Kad.trySend, hconn]
  | Pong => simp [Kad.handle_packet, heq', hp]

theorem c7_witness :
    ∃ (kp : KBuckets) (r : Except Contact Unit),
      kad0.known_peers.insert kad0.id { id := nearId 1, addr := 3 } = some (kp, r) ∧
      kad0.handle_packet { id := nearId 1, seq_num := 5, payload := Payload.Ping } 3 =
        some { kad0 with known_peers := kp, sent := kad0.sent ++
          (match ({ id := nearId 1, seq_num := 5, payload := Payload.Ping } : Packet).payload with
           | Payload.Ping =>
             [({ id := kad0.id, seq_num :=
                 ({ id := nearId 1, seq_num := 5, payload := Payload.Ping } : Packet).seq_num,
                 payload := Payload.Pong }, 3)]
           | Payload.Pong => [])} :=
  c7_handle_packet_reply kad0 { id := nearId 1, seq_num := 5, payload := Payload.Ping } 3
    rfl (by decide) (by decide) (by decide) Reachable.new

/-- C9 counterexample to the claim as stated: the protocol engine performs
no boundary check. A packet whose sender id equals the node's own identity
reaches `KBuckets::insert` and trips the distance-class assertion, so
`handle_packet` panics (`none`) instead of returning. -/
theorem c9_counterexample :
    kad0.handle_packet { id := zeroId, seq_num := 0, payload := Payload.Ping } 3 = none := by
  decide

/-- C9 (amended): for every inbound packet whose sender id equals the
node's own identity, the self id reaches `KBuckets::insert`, whose
`assert!(bucket < 256)` fails, and `handle_packet` panics rather than
returning. -/
theorem c9_self_packet_panics (k : Kad) (pack : Packet) (peer : Addr)
    (hme : k.id.WF) (hid : pack.id = k.id) :
    k.handle_packet pack peer = none := by
  have hnone : k.known_peers.insert k.id { id := pack.id, addr := peer } = none :=
    insert_self_none k.id hme { id := pack.id, addr := peer } hid 257 k.known_peers
  simp [Kad.handle_packet, hnone]

theorem c9_witness :
    kad0.handle_packet { id := zeroId, seq_num := 1, payload := Payload.Pong } 4 = none :=
  c9_self_packet_panics kad0 { id := zeroId, seq_num := 1, payload := Payload.Pong } 4
    (by decide) (by decide)

/-- C10 (implicit): once the outbound channel is disconnected,
`handle_packet` on a (well-formed, foreign) `Ping` packet and
`handle_command` on a `Ping` command hit the `unwrap` on the failed channel
send and panic (`none`); there is no non-panicking error return. -/
theorem c10_disconnected_channel_panics (k : Kad) (pack : Packet) (peer tgt : Addr)
    (hdisc : k.connected = false)
    (hping : pack.payload = Payload.Ping)
    (hme : k.id.WF) (hid : pack.id.WF) (hne : pack.id ≠ k.id)
    (hr : Reachable k.id k.known_peers) :
    k.handle_packet pack peer = none ∧
    k.handle_command (Command.Ping tgt) = none := by
  constructor
  · have hinv := reachable_inv hme hr
    obtain ⟨kp, r, heq, _, _, _⟩ :=
      insertA_spec k.id hme 257 k.known_peers { id := pack.id, addr := peer } hinv hid hne
        (by have := hinv.nts_le; omega)
    have heq' : k.known_peers.insert k.id { id := pack.id, addr := peer } = some (kp, r) := heq
    simp [Kad.handle_packet, heq', hping, Kad.trySend, hdisc]
  · simp [Kad.handle_command, Kad.trySend, hdisc]

theorem c10_witness :
    kadDisc.handle_packet { id := nearId 1, seq_num := 0, payload := Payload.Ping } 3 = none ∧
    kadDisc.handle_command (Command.Ping 9) = none :=
  c10_disconnected_channel_panics kadDisc
    { id := nearId 1, seq_num := 0, payload := Payload.Ping } 3 9 rfl rfl (by decide)
    (by decide) (by decide) Reachable.new

end Dht
